import Mathlib

/-!
# Verification of the ASCII Caesar-cipher cracker

Shallow embedding of `src/cipher/cipher.cpp` and `src/cracker/cracker.cpp`.

Modelling conventions:
* A byte stream is the list of byte values (as `Nat`) that are successfully
  read from it before `get`/`getline` first fails.  The source treats any
  read failure (end of file, bad bit, mid-stream fault) uniformly as loop
  exit, so an empty or unreadable stream is the empty list and a stream that
  faults after some bytes is the list of bytes read up to the fault.
* `std::unordered_map<int,int>` is embedded as an association list
  (`ScoreMap`) with `mapFind` for lookup and `mapIncr` for `scores[k]++`
  (`operator[]` default-inserts `0`, then the entry is incremented).
  Equality of unordered maps is lookup equality; the association list keeps
  insertion order, which the container does not observe.
* `double` is embedded as `Frac`, an exact unreduced fraction; a zero
  denominator models NaN (which the source produces exactly when the
  histogram of an empty input is divided by the zero character count), and
  the comparisons `Frac.blt`/`Frac.beq` are false on NaN as IEEE requires.
  Specification-level statements use `ℚ` through `Frac.toRat`.  Rounding of
  `double` arithmetic is abstracted: all arithmetic is exact.
* `std::isalnum`, `std::isspace`, `std::tolower` are embedded at their
  C-locale behaviour on `[0,127]`.
* Bytes are naturals; the embedding agrees with the source on the
  documented ASCII inputs (bytes in `[0,127]`), where `static_cast<int>`
  of the read `char` is the byte value itself.
-/

set_option maxRecDepth 100000

namespace CaesarCracker

/-- `cipher::kAsciiAlphabetSize` from `include/cipher/cipher.h`. -/
def kAsciiAlphabetSize : Nat := 128

/-- The Caesar shift applied to one byte, `(curr + shift) % kAsciiAlphabetSize`,
as performed in `AsciiCaesarCipher`, `AsciiDictionaryAttack` and
`AsciiFrequencyAnalysisAttack`. -/
def shiftByte (c s : Nat) : Nat := (c + s) % kAsciiAlphabetSize

/-- `cipher::AsciiCaesarCipher` from `src/cipher/cipher.cpp`, restricted to a
non-negative key: every byte of the input stream is shifted and written to the
output stream. -/
def AsciiCaesarCipher (input : List Nat) (shift : Nat) : List Nat :=
  input.map (fun c => shiftByte c shift)

/-- C-locale `std::isalnum` on `[0,127]`: decimal digits and Latin letters. -/
def isalnum (c : Nat) : Bool :=
  (48 ≤ c && c ≤ 57) || (65 ≤ c && c ≤ 90) || (97 ≤ c && c ≤ 122)

/-- C-locale `std::isspace` on `[0,127]`: space and the five control
whitespace characters `\t \n \v \f \r` (codes 9–13). -/
def isspace (c : Nat) : Bool :=
  c == 32 || (9 ≤ c && c ≤ 13)

/-- C-locale `std::tolower` on `[0,127]`. -/
def tolower (c : Nat) : Nat :=
  if 65 ≤ c && c ≤ 90 then c + 32 else c

/-- `cracker::KeyScoreMap = std::unordered_map<int,int>`, as an association
list of (key, score) pairs. -/
abbrev ScoreMap := List (Nat × Nat)

/-- Lookup in a `ScoreMap`; `none` means the key is absent. -/
def mapFind : ScoreMap → Nat → Option Nat
  | [], _ => none
  | (k, v) :: rest, j => if k = j then some v else mapFind rest j

/-- `scores[k]++`: increment the entry of `k`, inserting it (value `1`, from
default-inserted `0` plus the increment) when absent. -/
def mapIncr : ScoreMap → Nat → ScoreMap
  | [], j => [(j, 1)]
  | (k, v) :: rest, j => if k = j then (k, v + 1) :: rest else (k, v) :: mapIncr rest j

/-- The lines `std::getline` extracts from a byte stream: segments split at
`'\n'` (10).  The fold keeps the segment after the last newline as the final
element; `LoadDictionary` drops it when it is empty, matching `getline`
failing at end of file. -/
def splitNl (s : List Nat) : List (List Nat) :=
  s.foldr
    (fun c acc =>
      if c = 10 then [] :: acc
      else
        match acc with
        | [] => [[c]]
        | l :: ls => (c :: l) :: ls)
    [[]]

/-- `cracker::LoadDictionary` from `src/cracker/cracker.cpp`: the set of lines
read from the dictionary stream (an `unordered_set<string>`, embedded as the
list of lines; membership ignores duplicates and order). -/
def LoadDictionary (s : List Nat) : List (List Nat) :=
  match (splitNl s).getLast? with
  | some [] => (splitNl s).dropLast
  | _ => splitNl s

/-- The body of the inner `for (shift …)` loop of `AsciiDictionaryAttack` for
one ciphertext byte `curr` and one `shift`: updates the score map and this
shift's in-progress word buffer. -/
def dictCharStep (dict : List (List Nat)) (curr shift : Nat)
    (scores : ScoreMap) (w : List Nat) : ScoreMap × List Nat :=
  let tmp := shiftByte curr shift
  if isalnum tmp then
    (scores, w ++ [tolower tmp])
  else if !w.isEmpty && isspace tmp then
    ((if dict.contains w then mapIncr scores shift else scores), [])
  else
    (scores, w)

/-- The inner `for (shift …)` loop of `AsciiDictionaryAttack` for one byte,
walking the per-shift word buffers positionally from index `shift`. -/
def dictByteAux (dict : List (List Nat)) (curr : Nat) :
    Nat → ScoreMap → List (List Nat) → ScoreMap × List (List Nat)
  | _, scores, [] => (scores, [])
  | shift, scores, w :: ws =>
    let p := dictCharStep dict curr shift scores w
    let q := dictByteAux dict curr (shift + 1) p.1 ws
    (q.1, p.2 :: q.2)

/-- The `while (is.get(curr))` loop of `AsciiDictionaryAttack`: word buffers
start empty (`std::string words[kAsciiAlphabetSize]`), the score map starts
empty. -/
def dictPass (dict : List (List Nat)) (ct : List Nat) : ScoreMap × List (List Nat) :=
  ct.foldl (fun st c => dictByteAux dict c 0 st.1 st.2)
    ([], List.replicate kAsciiAlphabetSize [])

/-- The trailing-word loop of `AsciiDictionaryAttack`: for every shift, look
the (possibly empty) final buffer up in the dictionary and increment on a hit.
The source performs this lookup unconditionally, with no emptiness test. -/
def dictFlushAux (dict : List (List Nat)) :
    Nat → ScoreMap → List (List Nat) → ScoreMap
  | _, scores, [] => scores
  | shift, scores, w :: ws =>
    dictFlushAux dict (shift + 1)
      (if dict.contains w then mapIncr scores shift else scores) ws

/-- `cracker::AsciiDictionaryAttack` from `src/cracker/cracker.cpp`. -/
def AsciiDictionaryAttack (ct ds : List Nat) : ScoreMap :=
  let dict := LoadDictionary ds
  let st := dictPass dict ct
  dictFlushAux dict 0 st.1 st.2

/-- Pure per-shift transition of one word buffer for one byte (the buffer
component of `dictCharStep`; it does not depend on the dictionary). -/
def wordStep (c shift : Nat) (w : List Nat) : List Nat :=
  let tmp := shiftByte c shift
  if isalnum tmp then w ++ [tolower tmp]
  else if !w.isEmpty && isspace tmp then []
  else w

/-- Whether processing byte `c` at `shift` with current buffer `w` increments
the score: a completed word (non-empty buffer, whitespace after shifting) that
is in the dictionary. -/
def scoreBumpb (dict : List (List Nat)) (c shift : Nat) (w : List Nat) : Bool :=
  let tmp := shiftByte c shift
  !isalnum tmp && (!w.isEmpty && isspace tmp) && dict.contains w

/-- Per-shift accumulated (mid-pass hit count, word buffer) over a ciphertext. -/
def shiftRun (dict : List (List Nat)) (ct : List Nat) (s : Nat) : Nat × List Nat :=
  ct.foldl
    (fun st c =>
      (st.1 + (if scoreBumpb dict c s st.2 then 1 else 0), wordStep c s st.2))
    (0, [])

/-- Number of whitespace-terminated dictionary words shift `s` produces. -/
def shiftHits (dict : List (List Nat)) (ct : List Nat) (s : Nat) : Nat :=
  (shiftRun dict ct s).1

/-- The trailing word buffer of shift `s` after the full pass. -/
def shiftBuf (ct : List Nat) (s : Nat) : List Nat :=
  ct.foldl (fun w c => wordStep c s w) []

/-- Final score of shift `s`: mid-pass hits plus the unconditional
trailing-buffer lookup. -/
def dictTotal (dict : List (List Nat)) (ct : List Nat) (s : Nat) : Nat :=
  shiftHits dict ct s + (if dict.contains (shiftBuf ct s) then 1 else 0)

/-- Exact representation of the `double` values flowing through the frequency
attack: an integer numerator over a natural denominator, never reduced.
A zero denominator represents NaN, which the source produces in exactly one
way: normalising a histogram after reading zero characters divides `0.0` by
`0.0`.  Every arithmetic operation propagates a zero denominator and every
comparison involving one is false, reproducing IEEE NaN behaviour on the
values this program computes.  Rounding of `double` arithmetic is abstracted:
the arithmetic here is exact. -/
structure Frac where
  num : Int
  den : Nat

/-- NaN test: a zero denominator. -/
def Frac.isNaN (a : Frac) : Bool := a.den == 0

/-- Exact addition of fraction values (cross multiplication, no reduction). -/
def Frac.add (a b : Frac) : Frac :=
  ⟨a.num * b.den + b.num * a.den, a.den * b.den⟩

/-- Exact subtraction of fraction values. -/
def Frac.sub (a b : Frac) : Frac :=
  ⟨a.num * b.den - b.num * a.den, a.den * b.den⟩

/-- `std::abs` on a fraction value. -/
def Frac.fabs (a : Frac) : Frac := ⟨|a.num|, a.den⟩

/-- IEEE `<` on fraction values: false when an operand is NaN. -/
def Frac.blt (a b : Frac) : Bool :=
  !a.isNaN && !b.isNaN && decide (a.num * (b.den : Int) < b.num * (a.den : Int))

/-- IEEE `==` on fraction values: false when an operand is NaN. -/
def Frac.beq (a b : Frac) : Bool :=
  !a.isNaN && !b.isNaN && decide (a.num * (b.den : Int) = b.num * (a.den : Int))

/-- The rational value a (non-NaN) fraction denotes. -/
def Frac.toRat (a : Frac) : ℚ := (a.num : ℚ) / (a.den : ℚ)

/-- The decimal literal `m · 10^(-e)`, exactly. -/
def dec (m : Int) (e : Nat) : Frac := ⟨m, 10 ^ e⟩

/-- `kAsciiFreqDistro` from `cracker::ManhattanDist`: the 128 reference
frequencies.  Each entry is the exact value of the decimal literal in the
source, e.g. `dec 6338218895840436 23` is `6.338218895840436e-08`. -/
def kAsciiFreqDistro : List Frac :=
  [dec 0 0, dec 0 0, dec 0 0, dec 0 0,
   dec 0 0, dec 6338218895840436 23, dec 0 0, dec 0 0,
   dec 0 0, dec 12676437791680872 23, dec 19578060965172565 18, dec 0 0,
   dec 0 0, dec 0 0, dec 0 0, dec 0 0,
   dec 0 0, dec 0 0, dec 0 0, dec 0 0,
   dec 0 0, dec 0 0, dec 0 0, dec 0 0,
   dec 0 0, dec 0 0, dec 0 0, dec 6338218895840436 23,
   dec 0 0, dec 0 0, dec 6338218895840436 23, dec 0 0,
   dec 167564443682168 15, dec 5070575116672349 22, dec 15754276887500987 19, dec 0 0,
   dec 5070575116672349 22, dec 0 0, dec 20282300466689395 22, dec 15078622753204398 19,
   dec 3307916441739124 19, dec 3314254660634964 19, dec 4436753227088305 22, dec 15211725350017046 22,
   dec 8634492219614468 18, dec 2076717421222119 18, dec 11055184780313847 18, dec 519607185080999 18,
   dec 5918945715880591 18, dec 4937789430804492 18, dec 2756237869045172 18, dec 21865587546870337 19,
   dec 18385271551164353 19, dec 25269211093936652 19, dec 19199098857390264 19, dec 18243295447897528 19,
   dec 2552781042488694 18, dec 2442242504945237 18, dec 12036277683200988 20, dec 741571610813331 20,
   dec 44107665296153596 20, dec 25352875583361743 23, dec 4404428310719519 19, dec 4626899793963519 21,
   dec 6338218895840436 23, dec 24774830020061096 19, dec 17387002075069484 19, dec 2987392712176473 18,
   dec 10927723198318497 19, dec 12938206232079082 19, dec 1220297284016159 18, dec 9310209736100016 19,
   dec 8752446473266058 19, dec 20910417959267183 19, dec 8814561018445294 19, dec 3808001912620934 19,
   dec 10044809306127922 19, dec 18134911904778657 19, dec 12758834637326799 19, dec 8210528757671701 19,
   dec 138908405321239 17, dec 10001709417636208 20, dec 11037374385216535 19, dec 30896915651553373 19,
   dec 30701064687671904 19, dec 10426370083657518 19, dec 2556203680692448 19, dec 8048270353938186 19,
   dec 6572732994986532 20, dec 25194420110965734 20, dec 8619977698342993 20, dec 697204078542448 21,
   dec 0 0, dec 6338218895840436 22, dec 22183766135441526 22, dec 12676437791680872 23,
   dec 0 0, dec 612553996079051 16, dec 1034644514338097 17, dec 2500268898936656 17,
   dec 3188948073064199 17, dec 8610229517681191 17, dec 15750347191785568 18, dec 12804659959943725 18,
   dec 2619237267611581 17, dec 5480626188138746 17, dec 617596049210692 18, dec 4945712204424292 18,
   dec 3218192615049607 17, dec 18140172626462205 18, dec 5503703643138501 17, dec 541904405334676 16,
   dec 17362092874808832 18, dec 100853739070613 17, dec 51525029341199825 18, dec 518864979648296 16,
   dec 632964962389326 16, dec 19247776378510318 18, dec 7819143740853554 18, dec 9565830104169261 18,
   dec 23064144740073764 19, dec 10893686962847832 18, dec 5762708620098124 19, dec 6338218895840436 23,
   dec 0 0, dec 0 0, dec 19014656687521307 23, dec 31057272589618137 22]

/-- Bucket `i` of the reference distribution.  The source only reads indices
below 128; the default is never used. -/
def refF (i : Nat) : Frac := (kAsciiFreqDistro.get? i).getD (dec 0 0)

/-- `freqs[shift][b]` after the counting pass of
`AsciiFrequencyAnalysisAttack`: how many ciphertext bytes shift into bucket
`b` under `shift`. -/
def histCount (ct : List Nat) (s b : Nat) : Nat :=
  (ct.filter (fun c => shiftByte c s == b)).length

/-- Bucket `b` of shift `s` after normalisation by the character count
(`val /= num_chars`); NaN (`0.0 / 0.0`) when no characters were read. -/
def obsFreq (ct : List Nat) (s b : Nat) : Frac :=
  ⟨(histCount ct s b : Int), ct.length⟩

/-- `cracker::ManhattanDist` from `src/cracker/cracker.cpp`: the L1 distance
between an observed distribution and `kAsciiFreqDistro`, summed with
`sum += std::abs(observed[i] - kAsciiFreqDistro[i])` from `sum = 0.0`. -/
def ManhattanDist (observed : Nat → Frac) : Frac :=
  (List.range kAsciiAlphabetSize).foldl
    (fun sum i => sum.add ((observed i).sub (refF i)).fabs) (dec 0 0)

/-- `std::numeric_limits<double>::max()`, exactly. -/
def dblMax : Frac := ⟨2 ^ 1024 - 2 ^ 971, 1⟩

/-- One iteration of the loop in `cracker::FindMinDistShifts`: a strictly
smaller distance clears the map and records the shift, an equal distance adds
the shift, anything else leaves the state unchanged. -/
def minStep (dist : Nat → Frac) (st : ScoreMap × Frac) (shift : Nat) :
    ScoreMap × Frac :=
  if (dist shift).blt st.2 then (mapIncr [] shift, dist shift)
  else if (dist shift).beq st.2 then (mapIncr st.1 shift, st.2)
  else st

/-- `cracker::FindMinDistShifts` from `src/cracker/cracker.cpp`:
`min_dist` starts at `DBL_MAX`, the score map starts empty. -/
def FindMinDistShifts (dist : Nat → Frac) : ScoreMap :=
  ((List.range kAsciiAlphabetSize).foldl (minStep dist) ([], dblMax)).1

/-- `cracker::AsciiFrequencyAnalysisAttack` from `src/cracker/cracker.cpp`. -/
def AsciiFrequencyAnalysisAttack (ct : List Nat) : ScoreMap :=
  FindMinDistShifts (fun s => ManhattanDist (obsFreq ct s))

/-- Specification-level value of reference bucket `i`, as a rational. -/
def refQ (i : Nat) : ℚ := (refF i).toRat

/-- Specification-level normalised frequency of bucket `b` under shift `s`. -/
def obsQ (ct : List Nat) (s b : Nat) : ℚ :=
  (histCount ct s b : ℚ) / (ct.length : ℚ)

/-- Specification-level Manhattan distance of shift `s`, as a rational; equal
to the value `ManhattanDist` computes whenever the ciphertext is non-empty. -/
def distQ (ct : List Nat) (s : Nat) : ℚ :=
  (List.range kAsciiAlphabetSize).foldl (fun a i => a + |obsQ ct s i - refQ i|) 0

/-- `s` is a shift of minimal Manhattan distance for ciphertext `ct`. -/
def IsMinDistShift (ct : List Nat) (s : Nat) : Prop :=
  s < 128 ∧ ∀ t, t < 128 → distQ ct s ≤ distQ ct t

instance (ct : List Nat) (s : Nat) : Decidable (IsMinDistShift ct s) := by
  unfold IsMinDistShift
  infer_instance

/-! ## Concrete data for the spec's scenario -/

/-- The plaintext `"attack at dawn"` as ASCII bytes. -/
def attackAtDawn : List Nat :=
  [97, 116, 116, 97, 99, 107, 32, 97, 116, 32, 100, 97, 119, 110]

/-- The dictionary stream `"attack\nat\ndawn"` as ASCII bytes. -/
def attackDict : List Nat :=
  [97, 116, 116, 97, 99, 107, 10, 97, 116, 10, 100, 97, 119, 110]


/-! ## Association-list score map lemmas -/

@[simp]
lemma kAsciiAlphabetSize_eq : kAsciiAlphabetSize = 128 := rfl

lemma mapFind_mapIncr_self (m : ScoreMap) (k : Nat) :
    mapFind (mapIncr m k) k = some ((mapFind m k).getD 0 + 1) := by
  induction m with
  | nil => simp [mapIncr, mapFind]
  | cons p rest ih =>
    obtain ⟨a, b⟩ := p
    by_cases h : a = k <;> simp [mapIncr, mapFind, h, ih]

lemma mapFind_mapIncr_ne (m : ScoreMap) {j k : Nat} (h : j ≠ k) :
    mapFind (mapIncr m k) j = mapFind m j := by
  induction m with
  | nil =>
    show (if k = j then some 1 else mapFind [] j) = none
    rw [if_neg (fun hh => h hh.symm)]
    rfl
  | cons p rest ih =>
    obtain ⟨a, b⟩ := p
    by_cases ha : a = k <;> by_cases hj : a = j <;>
      simp_all [mapIncr, mapFind]

lemma eq_nil_of_mapFind_none {m : ScoreMap} (h : ∀ k, mapFind m k = none) :
    m = [] := by
  cases m with
  | nil => rfl
  | cons p rest =>
    have := h p.1
    simp [mapFind] at this

/-! ## Dictionary attack: per-byte and whole-pass characterisation -/

lemma dictCharStep_fst (dict : List (List Nat)) (c s : Nat)
    (scores : ScoreMap) (w : List Nat) :
    (dictCharStep dict c s scores w).1 =
      if scoreBumpb dict c s w then mapIncr scores s else scores := by
  unfold dictCharStep scoreBumpb
  by_cases h1 : isalnum (shiftByte c s) <;>
    by_cases h2 : (!w.isEmpty && isspace (shiftByte c s)) <;>
      by_cases h3 : dict.contains w <;>
        simp [h1, h2, h3]

lemma dictCharStep_snd (dict : List (List Nat)) (c s : Nat)
    (scores : ScoreMap) (w : List Nat) :
    (dictCharStep dict c s scores w).2 = wordStep c s w := by
  unfold dictCharStep wordStep
  by_cases h1 : isalnum (shiftByte c s) <;>
    by_cases h2 : (!w.isEmpty && isspace (shiftByte c s)) <;>
      by_cases h3 : dict.contains w <;>
        simp [h1, h2, h3]

lemma dictByteAux_words (dict : List (List Nat)) (c : Nat) (g : Nat → List Nat) :
    ∀ n i scores,
      (dictByteAux dict c i scores ((List.range' i n).map g)).2 =
        (List.range' i n).map (fun s => wordStep c s (g s)) := by
  intro n
  induction n with
  | zero => intro i scores; rfl
  | succ n ih =>
    intro i scores
    rw [List.range'_succ]
    simp only [List.map_cons, dictByteAux, dictCharStep_snd]
    rw [ih (i + 1)]

lemma dictByteAux_find (dict : List (List Nat)) (c : Nat) (g : Nat → List Nat) :
    ∀ n i scores k,
      mapFind (dictByteAux dict c i scores ((List.range' i n).map g)).1 k =
        if i ≤ k ∧ k < i + n ∧ scoreBumpb dict c k (g k) = true then
          some ((mapFind scores k).getD 0 + 1)
        else mapFind scores k := by
  intro n
  induction n with
  | zero =>
    intro i scores k
    have : ¬ (i ≤ k ∧ k < i + 0 ∧ scoreBumpb dict c k (g k) = true) := by omega
    simp only [List.range'_zero, List.map_nil, dictByteAux, this, if_false]
  | succ n ih =>
    intro i scores k
    rw [List.range'_succ]
    simp only [List.map_cons, dictByteAux]
    rw [ih (i + 1), dictCharStep_fst]
    by_cases hk : k = i
    · subst hk
      have h1 : ¬ (k + 1 ≤ k ∧ k < k + 1 + n ∧ scoreBumpb dict c k (g k) = true) := by omega
      by_cases hb : scoreBumpb dict c k (g k)
      · simp [h1, hb, mapFind_mapIncr_self, Nat.lt_add_of_pos_right]
      · simp [h1, hb]
    · have hfind : mapFind (if scoreBumpb dict c i (g i) then mapIncr scores i else scores) k
          = mapFind scores k := by
        by_cases hb : scoreBumpb dict c i (g i)
        · simp [hb, mapFind_mapIncr_ne _ hk]
        · simp [hb]
      rw [hfind]
      by_cases hc : i + 1 ≤ k ∧ k < i + 1 + n ∧ scoreBumpb dict c k (g k) = true
      · have hc' : i ≤ k ∧ k < i + (n + 1) ∧ scoreBumpb dict c k (g k) = true := by
          exact ⟨by omega, by omega, hc.2.2⟩
        simp [hc, hc']
      · have hc' : ¬ (i ≤ k ∧ k < i + (n + 1) ∧ scoreBumpb dict c k (g k) = true) := by
          intro h
          exact hc ⟨by omega, by omega, h.2.2⟩
        simp [hc, hc']

lemma shiftRun_snd (dict : List (List Nat)) (ct : List Nat) (s : Nat) :
    (shiftRun dict ct s).2 = shiftBuf ct s := by
  suffices h : ∀ (l : List Nat) (a : Nat) (w : List Nat),
      (l.foldl (fun st c =>
        (st.1 + (if scoreBumpb dict c s st.2 then 1 else 0), wordStep c s st.2)) (a, w)).2 =
      l.foldl (fun w c => wordStep c s w) w by
    exact h ct 0 []
  intro l
  induction l with
  | nil => intro a w; rfl
  | cons c l ih => intro a w; exact ih _ _

lemma shiftBuf_append (ct : List Nat) (c s : Nat) :
    shiftBuf (ct ++ [c]) s = wordStep c s (shiftBuf ct s) := by
  simp [shiftBuf, List.foldl_append]

lemma shiftHits_append (dict : List (List Nat)) (ct : List Nat) (c s : Nat) :
    shiftHits dict (ct ++ [c]) s =
      shiftHits dict ct s + (if scoreBumpb dict c s (shiftBuf ct s) then 1 else 0) := by
  rw [← shiftRun_snd dict ct s]
  unfold shiftHits shiftRun
  rw [List.foldl_append]
  rfl

lemma dictPass_spec (dict : List (List Nat)) (ct : List Nat) :
    (dictPass dict ct).2 = (List.range 128).map (shiftBuf ct) ∧
    ∀ k, mapFind (dictPass dict ct).1 k =
      if k < 128 ∧ 0 < shiftHits dict ct k then some (shiftHits dict ct k) else none := by
  induction ct using List.reverseRecOn with
  | nil =>
    constructor
    · show List.replicate kAsciiAlphabetSize [] = _
      symm
      rw [kAsciiAlphabetSize_eq, List.eq_replicate_iff]
      refine ⟨by simp, ?_⟩
      intro b hb
      simp only [List.mem_map] at hb
      obtain ⟨s, _, rfl⟩ := hb
      rfl
    · intro k
      have h0 : shiftHits dict [] k = 0 := rfl
      simp [dictPass, mapFind, h0]
  | append_singleton ct c ih =>
    obtain ⟨ihw, ihs⟩ := ih
    have hstep : dictPass dict (ct ++ [c]) =
        dictByteAux dict c 0 (dictPass dict ct).1 (dictPass dict ct).2 := by
      unfold dictPass
      rw [List.foldl_append]
      rfl
    have hrange : (List.range 128).map (shiftBuf ct) = (List.range' 0 128).map (shiftBuf ct) := by
      rw [List.range_eq_range']
    constructor
    · rw [hstep, ihw, hrange, dictByteAux_words]
      rw [List.range_eq_range']
      apply List.map_congr_left
      intro s _
      rw [shiftBuf_append]
    · intro k
      rw [hstep, ihw, hrange, dictByteAux_find]
      rw [ihs k, shiftHits_append]
      by_cases hk : k < 128 <;> by_cases hb : scoreBumpb dict c k (shiftBuf ct k) <;>
        by_cases hz : 0 < shiftHits dict ct k <;>
          simp [hk, hb, hz] <;> omega

lemma dictFlushAux_find (dict : List (List Nat)) (g : Nat → List Nat) :
    ∀ n i scores k,
      mapFind (dictFlushAux dict i scores ((List.range' i n).map g)) k =
        if i ≤ k ∧ k < i + n ∧ g k ∈ dict then
          some ((mapFind scores k).getD 0 + 1)
        else mapFind scores k := by
  intro n
  induction n with
  | zero =>
    intro i scores k
    have : ¬ (i ≤ k ∧ k < i + 0 ∧ g k ∈ dict) := by omega
    simp only [List.range'_zero, List.map_nil, dictFlushAux, this, if_false]
  | succ n ih =>
    intro i scores k
    rw [List.range'_succ]
    simp only [List.map_cons, dictFlushAux]
    rw [ih (i + 1)]
    by_cases hk : k = i
    · subst hk
      have h1 : ¬ (k + 1 ≤ k ∧ k < k + 1 + n ∧ g k ∈ dict) := by omega
      by_cases hb : g k ∈ dict
      · simp [h1, hb, mapFind_mapIncr_self, Nat.lt_add_of_pos_right]
      · simp [h1, hb]
    · have hfind : mapFind (if dict.contains (g i) then mapIncr scores i else scores) k
          = mapFind scores k := by
        by_cases hb : g i ∈ dict <;> simp [hb, mapFind_mapIncr_ne _ hk]
      rw [hfind]
      by_cases hc : i + 1 ≤ k ∧ k < i + 1 + n ∧ g k ∈ dict
      · have hc' : i ≤ k ∧ k < i + (n + 1) ∧ g k ∈ dict :=
          ⟨by omega, by omega, hc.2.2⟩
        simp [hc, hc']
      · have hc' : ¬ (i ≤ k ∧ k < i + (n + 1) ∧ g k ∈ dict) := by
          intro h
          exact hc ⟨by omega, by omega, h.2.2⟩
        simp [hc, hc']

/-- Master characterisation of the dictionary attack: a key is present exactly
when its total score (mid-pass whitespace-terminated hits plus the
unconditional trailing-buffer lookup) is positive, and then its value is that
total. -/
lemma dict_master (ct ds : List Nat) (k : Nat) :
    mapFind (AsciiDictionaryAttack ct ds) k =
      if k < 128 ∧ 0 < dictTotal (LoadDictionary ds) ct k then
        some (dictTotal (LoadDictionary ds) ct k)
      else none := by
  show mapFind (dictFlushAux (LoadDictionary ds) 0
      (dictPass (LoadDictionary ds) ct).1 (dictPass (LoadDictionary ds) ct).2) k = _
  have hp := dictPass_spec (LoadDictionary ds) ct
  rw [show (List.range 128).map (shiftBuf ct) = (List.range' 0 128).map (shiftBuf ct) by
        rw [List.range_eq_range']] at hp
  rw [hp.1, dictFlushAux_find, hp.2 k]
  unfold dictTotal
  by_cases hk : k < 128 <;>
    by_cases hb : shiftBuf ct k ∈ LoadDictionary ds <;>
      by_cases hz : 0 < shiftHits (LoadDictionary ds) ct k <;>
        simp [hk, hb, hz] <;> omega

/-! ## Fraction values: bridge to rational arithmetic -/

lemma Frac.toRat_add {a b : Frac} (ha : a.den ≠ 0) (hb : b.den ≠ 0) :
    (a.add b).toRat = a.toRat + b.toRat := by
  have ha' : ((a.den : ℚ)) ≠ 0 := by exact_mod_cast ha
  have hb' : ((b.den : ℚ)) ≠ 0 := by exact_mod_cast hb
  unfold Frac.add Frac.toRat
  push_cast
  field_simp

lemma Frac.toRat_sub {a b : Frac} (ha : a.den ≠ 0) (hb : b.den ≠ 0) :
    (a.sub b).toRat = a.toRat - b.toRat := by
  have ha' : ((a.den : ℚ)) ≠ 0 := by exact_mod_cast ha
  have hb' : ((b.den : ℚ)) ≠ 0 := by exact_mod_cast hb
  unfold Frac.sub Frac.toRat
  push_cast
  field_simp
  ring

lemma Frac.toRat_fabs (a : Frac) : a.fabs.toRat = |a.toRat| := by
  unfold Frac.fabs Frac.toRat
  rw [abs_div, Int.cast_abs,
    abs_of_nonneg (show (0 : ℚ) ≤ (a.den : ℚ) by positivity)]

lemma Frac.blt_iff {a b : Frac} (ha : a.den ≠ 0) (hb : b.den ≠ 0) :
    a.blt b = true ↔ a.toRat < b.toRat := by
  have ha' : (0 : ℚ) < (a.den : ℚ) := by exact_mod_cast Nat.pos_of_ne_zero ha
  have hb' : (0 : ℚ) < (b.den : ℚ) := by exact_mod_cast Nat.pos_of_ne_zero hb
  have hcross : a.toRat < b.toRat ↔ a.num * (b.den : Int) < b.num * (a.den : Int) := by
    unfold Frac.toRat
    rw [div_lt_div_iff₀ ha' hb']
    constructor
    · intro hh; exact_mod_cast hh
    · intro hh; exact_mod_cast hh
  unfold Frac.blt Frac.isNaN
  rw [hcross]
  simp [ha, hb]

lemma Frac.beq_iff {a b : Frac} (ha : a.den ≠ 0) (hb : b.den ≠ 0) :
    a.beq b = true ↔ a.toRat = b.toRat := by
  have ha' : ((a.den : ℚ)) ≠ 0 := by exact_mod_cast ha
  have hb' : ((b.den : ℚ)) ≠ 0 := by exact_mod_cast hb
  have hcross : a.toRat = b.toRat ↔ a.num * (b.den : Int) = b.num * (a.den : Int) := by
    unfold Frac.toRat
    rw [div_eq_div_iff ha' hb']
    constructor
    · intro hh; exact_mod_cast hh
    · intro hh; exact_mod_cast hh
  unfold Frac.beq Frac.isNaN
  rw [hcross]
  simp [ha, hb]

lemma Frac.blt_eq_false {a b : Frac} (ha : a.den ≠ 0) (hb : b.den ≠ 0)
    (h : ¬ a.toRat < b.toRat) : a.blt b = false :=
  Bool.eq_false_iff.mpr (fun hh => h ((Frac.blt_iff ha hb).mp hh))

lemma Frac.beq_eq_false {a b : Frac} (ha : a.den ≠ 0) (hb : b.den ≠ 0)
    (h : a.toRat ≠ b.toRat) : a.beq b = false :=
  Bool.eq_false_iff.mpr (fun hh => h ((Frac.beq_iff ha hb).mp hh))

/-! ## Frequency attack: characterisation of the minimum-distance fold -/

set_option maxRecDepth 4096 in
lemma kAsciiFreqDistro_entry_bounds :
    ∀ f ∈ kAsciiFreqDistro, f.den ≠ 0 ∧ 0 ≤ f.num ∧ f.num ≤ (f.den : Int) := by
  decide

lemma refF_den_ne (i : Nat) : (refF i).den ≠ 0 := by
  unfold refF
  cases h : kAsciiFreqDistro.get? i with
  | none => decide
  | some f => simpa using (kAsciiFreqDistro_entry_bounds f (List.get?_mem h)).1

lemma refQ_nonneg (i : Nat) : 0 ≤ refQ i := by
  unfold refQ Frac.toRat
  apply div_nonneg _ (by positivity)
  unfold refF
  cases h : kAsciiFreqDistro.get? i with
  | none => decide
  | some f =>
    have := (kAsciiFreqDistro_entry_bounds f (List.get?_mem h)).2.1
    simpa using (show ((0 : Int) : ℚ) ≤ (f.num : ℚ) by exact_mod_cast this)

lemma refQ_le_one (i : Nat) : refQ i ≤ 1 := by
  unfold refQ Frac.toRat
  have hden : ((refF i).den : ℚ) > 0 := by
    exact_mod_cast Nat.pos_of_ne_zero (refF_den_ne i)
  rw [div_le_one hden]
  unfold refF
  cases h : kAsciiFreqDistro.get? i with
  | none => simp [dec]
  | some f =>
    have := (kAsciiFreqDistro_entry_bounds f (List.get?_mem h)).2.2
    simpa using (show ((f.num : ℚ)) ≤ ((f.den : Int) : ℚ) by exact_mod_cast this)

lemma obsQ_nonneg (ct : List Nat) (s b : Nat) : 0 ≤ obsQ ct s b := by
  unfold obsQ
  positivity

lemma obsQ_le_one {ct : List Nat} (h : ct ≠ []) (s b : Nat) :
    obsQ ct s b ≤ 1 := by
  unfold obsQ
  rw [div_le_one (by exact_mod_cast List.length_pos.mpr h)]
  exact_mod_cast List.length_filter_le _ ct

lemma abs_term_le_one {ct : List Nat} (h : ct ≠ []) (s i : Nat) :
    |obsQ ct s i - refQ i| ≤ 1 := by
  have h1 := obsQ_nonneg ct s i
  have h2 := obsQ_le_one h s i
  have h3 := refQ_nonneg i
  have h4 := refQ_le_one i
  rw [abs_le]
  constructor <;> linarith

lemma foldl_add_le_length (f : Nat → ℚ) :
    ∀ (l : List Nat) (a : ℚ), (∀ i ∈ l, f i ≤ 1) →
      l.foldl (fun acc i => acc + f i) a ≤ a + l.length := by
  intro l
  induction l with
  | nil => intro a _; simp
  | cons i l ih =>
    intro a hb
    have h1 : f i ≤ 1 := hb i (by simp)
    have h2 := ih (a + f i) (fun j hj => hb j (by simp [hj]))
    simp only [List.foldl_cons, List.length_cons]
    push_cast
    push_cast at h2
    linarith

lemma dblMax_den_ne : dblMax.den ≠ 0 := by decide

lemma dblMax_toRat : dblMax.toRat = 2 ^ 1024 - 2 ^ 971 := by
  unfold dblMax Frac.toRat
  push_cast
  norm_num

lemma distQ_lt_dblMax {ct : List Nat} (h : ct ≠ []) (s : Nat) :
    distQ ct s < dblMax.toRat := by
  have hle : distQ ct s ≤ 0 + ((List.range kAsciiAlphabetSize).length : ℚ) :=
    foldl_add_le_length _ _ 0 (fun i _ => abs_term_le_one h s i)
  have h128 : ((List.range kAsciiAlphabetSize).length : ℚ) = 128 := by simp
  rw [h128] at hle
  rw [dblMax_toRat]
  have h1 : (2 : ℚ) ^ 971 ≤ 2 ^ 1023 := by
    apply pow_le_pow_right₀ (by norm_num) (by norm_num)
  have h2 : (2 : ℚ) ^ 1024 = 2 ^ 1023 + 2 ^ 1023 := by ring
  have h3 : (128 : ℚ) < 2 ^ 1023 := by
    calc (128 : ℚ) < 2 ^ 8 := by norm_num
    _ ≤ 2 ^ 1023 := by apply pow_le_pow_right₀ (by norm_num) (by norm_num)
  linarith

lemma manhattan_spec {ct : List Nat} (h : ct ≠ []) (s : Nat) :
    (ManhattanDist (obsFreq ct s)).den ≠ 0 ∧
    (ManhattanDist (obsFreq ct s)).toRat = distQ ct s := by
  have hlen : ct.length ≠ 0 := fun hh => h (List.length_eq_zero.mp hh)
  have hgen : ∀ (l : List Nat) (acc : Frac), acc.den ≠ 0 →
      (l.foldl (fun sum i => sum.add ((obsFreq ct s i).sub (refF i)).fabs) acc).den ≠ 0 ∧
      (l.foldl (fun sum i => sum.add ((obsFreq ct s i).sub (refF i)).fabs) acc).toRat =
        l.foldl (fun a i => a + |obsQ ct s i - refQ i|) acc.toRat := by
    intro l
    induction l with
    | nil => intro acc hacc; exact ⟨hacc, rfl⟩
    | cons i l ih =>
      intro acc hacc
      have hobs : (obsFreq ct s i).den ≠ 0 := hlen
      have href : (refF i).den ≠ 0 := refF_den_ne i
      have hterm : (((obsFreq ct s i).sub (refF i)).fabs).den ≠ 0 := by
        show (obsFreq ct s i).den * (refF i).den ≠ 0
        exact Nat.mul_ne_zero hobs href
      have hacc' : ((acc.add (((obsFreq ct s i).sub (refF i)).fabs))).den ≠ 0 := by
        show acc.den * (((obsFreq ct s i).sub (refF i)).fabs).den ≠ 0
        exact Nat.mul_ne_zero hacc hterm
      obtain ⟨hd, ht⟩ := ih _ hacc'
      refine ⟨hd, ?_⟩
      simp only [List.foldl_cons]
      rw [ht, Frac.toRat_add hacc hterm, Frac.toRat_fabs,
        Frac.toRat_sub hobs href]
      have hobsq : (obsFreq ct s i).toRat = obsQ ct s i := by
        unfold obsFreq Frac.toRat obsQ
        norm_num
      rw [hobsq]
      rfl
  have hinit : (dec 0 0 : Frac).den ≠ 0 := by decide
  have := hgen (List.range kAsciiAlphabetSize) (dec 0 0) hinit
  unfold ManhattanDist distQ
  have h0 : (dec 0 0 : Frac).toRat = 0 := by
    unfold dec Frac.toRat
    norm_num
  rw [h0] at this
  exact this

lemma minStep_fold_spec (d : Nat → Frac) (M : Frac) (hM : M.den ≠ 0) :
    ∀ n, (∀ s, s < n → (d s).den ≠ 0) → (∀ s, s < n → (d s).toRat < M.toRat) →
      ∃ sc mf,
        (List.range n).foldl (minStep d) ([], M) = (sc, mf) ∧
        mf.den ≠ 0 ∧
        (∀ k, mapFind sc k =
          if k < n ∧ (d k).toRat = mf.toRat then some 1 else none) ∧
        mf.toRat ≤ M.toRat ∧
        (∀ s, s < n → mf.toRat ≤ (d s).toRat) ∧
        (mf.toRat = M.toRat ∨ ∃ s, s < n ∧ (d s).toRat = mf.toRat) := by
  intro n
  induction n with
  | zero =>
    intro _ _
    refine ⟨[], M, rfl, hM, ?_, le_refl _, ?_, Or.inl rfl⟩
    · intro k
      have hno : ¬ (k < 0 ∧ (d k).toRat = M.toRat) := by
        rintro ⟨hh, _⟩; omega
      rw [if_neg hno]
      rfl
    · intro s hs; omega
  | succ n ih =>
    intro hden hlt
    obtain ⟨sc, mf, heq, hmfden, hfind, hle, hmin, hatt⟩ :=
      ih (fun s hs => hden s (by omega)) (fun s hs => hlt s (by omega))
    rw [List.range_succ, List.foldl_append, heq]
    simp only [List.foldl_cons, List.foldl_nil]
    have hdn : (d n).den ≠ 0 := hden n (by omega)
    rcases lt_trichotomy ((d n).toRat) mf.toRat with hc | hc | hc
    · -- strictly smaller: reset the map to this shift
      have hblt : (d n).blt mf = true := (Frac.blt_iff hdn hmfden).mpr hc
      refine ⟨[(n, 1)], d n, ?_, hdn, ?_, ?_, ?_, Or.inr ⟨n, by omega, rfl⟩⟩
      · simp [minStep, hblt, mapIncr]
      · intro k
        by_cases hk : k = n
        · subst hk
          have hcond : k < k + 1 ∧ (d k).toRat = (d k).toRat := ⟨by omega, rfl⟩
          rw [if_pos hcond]
          simp [mapFind]
        · have hcond : ¬ (k < n + 1 ∧ (d k).toRat = (d n).toRat) := by
            rintro ⟨hk1, hk2⟩
            have hkn : k < n := by omega
            have := hmin k hkn
            rw [hk2] at this
            exact absurd hc (not_lt.mpr this)
          rw [if_neg hcond]
          show (if n = k then some 1 else mapFind [] k) = none
          rw [if_neg (fun hh => hk hh.symm)]
          rfl
      · exact le_of_lt (lt_of_lt_of_le hc hle)
      · intro s hs
        by_cases hsn : s = n
        · subst hsn; exact le_refl _
        · exact le_of_lt (lt_of_lt_of_le hc (hmin s (by omega)))
    · -- equal: add this shift to the map
      have hblt : (d n).blt mf = false := Frac.blt_eq_false hdn hmfden (by rw [hc]; exact lt_irrefl _)
      have hbeq : (d n).beq mf = true := (Frac.beq_iff hdn hmfden).mpr hc
      have hscn : mapFind sc n = none := by
        rw [hfind n]
        exact if_neg (by rintro ⟨hh, _⟩; omega)
      refine ⟨mapIncr sc n, mf, ?_, hmfden, ?_, hle, ?_, Or.inr ⟨n, by omega, hc⟩⟩
      · simp [minStep, hblt, hbeq]
      · intro k
        by_cases hk : k = n
        · subst hk
          rw [mapFind_mapIncr_self, hscn]
          have hcond : k < k + 1 ∧ (d k).toRat = mf.toRat := ⟨by omega, hc⟩
          rw [if_pos hcond]
          simp
        · rw [mapFind_mapIncr_ne _ hk, hfind k]
          by_cases hc2 : k < n ∧ (d k).toRat = mf.toRat
          · rw [if_pos hc2, if_pos ⟨by omega, hc2.2⟩]
          · rw [if_neg hc2, if_neg (by rintro ⟨h1, h2⟩; exact hc2 ⟨by omega, h2⟩)]
      · intro s hs
        by_cases hsn : s = n
        · subst hsn; exact le_of_eq hc.symm
        · exact hmin s (by omega)
    · -- strictly larger: the state is unchanged
      have hblt : (d n).blt mf = false := Frac.blt_eq_false hdn hmfden (not_lt.mpr (le_of_lt hc))
      have hbeq : (d n).beq mf = false := Frac.beq_eq_false hdn hmfden (ne_of_gt hc)
      refine ⟨sc, mf, ?_, hmfden, ?_, hle, ?_, ?_⟩
      · simp [minStep, hblt, hbeq]
      · intro k
        rw [hfind k]
        by_cases hk : k = n
        · subst hk
          rw [if_neg (by rintro ⟨hh, _⟩; omega),
            if_neg (by rintro ⟨_, h2⟩; exact absurd hc (not_lt.mpr (le_of_eq h2)))]
        · by_cases hc2 : k < n ∧ (d k).toRat = mf.toRat
          · rw [if_pos hc2, if_pos ⟨by omega, hc2.2⟩]
          · rw [if_neg hc2, if_neg (by rintro ⟨h1, h2⟩; exact hc2 ⟨by omega, h2⟩)]
      · intro s hs
        by_cases hsn : s = n
        · subst hsn; exact le_of_lt hc
        · exact hmin s (by omega)
      · rcases hatt with h1 | ⟨s, hs, he⟩
        · exact Or.inl h1
        · exact Or.inr ⟨s, by omega, he⟩

/-- Master characterisation of the frequency attack on non-empty input: a key
is present exactly when it is a shift of minimal Manhattan distance (all ties
included), and then its value is `1`. -/
lemma freq_master {ct : List Nat} (h : ct ≠ []) (k : Nat) :
    mapFind (AsciiFrequencyAnalysisAttack ct) k =
      if IsMinDistShift ct k then some 1 else none := by
  have hman : ∀ s, (ManhattanDist (obsFreq ct s)).den ≠ 0 ∧
      (ManhattanDist (obsFreq ct s)).toRat = distQ ct s := fun s => manhattan_spec h s
  obtain ⟨sc, mf, heq, hmfden, hfind, _, hmin, hatt⟩ :=
    minStep_fold_spec (fun s => ManhattanDist (obsFreq ct s)) dblMax dblMax_den_ne 128
      (fun s _ => (hman s).1)
      (fun s _ => by rw [(hman s).2]; exact distQ_lt_dblMax h s)
  have hres : AsciiFrequencyAnalysisAttack ct = sc := by
    unfold AsciiFrequencyAnalysisAttack FindMinDistShifts
    rw [kAsciiAlphabetSize_eq, heq]
  rw [hres, hfind k]
  have hdist : ∀ s, (ManhattanDist (obsFreq ct s)).toRat = distQ ct s :=
    fun s => (hman s).2
  have hattained : ∃ s, s < 128 ∧ distQ ct s = mf.toRat := by
    rcases hatt with he | ⟨s, hs, he⟩
    · exfalso
      have h1 := hmin 0 (by omega)
      rw [hdist 0, he] at h1
      exact absurd (distQ_lt_dblMax h 0) (not_lt.mpr h1)
    · exact ⟨s, hs, by rw [← hdist s]; exact he⟩
  by_cases hk : k < 128
  · by_cases he : (ManhattanDist (obsFreq ct k)).toRat = mf.toRat
    · have heq1 : distQ ct k = mf.toRat := by rw [← hdist k]; exact he
      have hmink : IsMinDistShift ct k := by
        refine ⟨hk, ?_⟩
        intro t ht
        calc distQ ct k = mf.toRat := heq1
          _ ≤ (ManhattanDist (obsFreq ct t)).toRat := hmin t ht
          _ = distQ ct t := hdist t
      rw [if_pos ⟨hk, he⟩, if_pos hmink]
    · have hne : ¬ IsMinDistShift ct k := by
        rintro ⟨_, hall⟩
        obtain ⟨s, hs, hsm⟩ := hattained
        apply he
        rw [hdist k]
        exact le_antisymm (hsm ▸ hall s hs) (by rw [← hdist k]; exact hmin k hk)
      rw [if_neg (fun hc => he hc.2), if_neg hne]
  · rw [if_neg (fun hc => absurd hc.1 hk),
      if_neg (fun hc : IsMinDistShift ct k => absurd hc.1 hk)]

set_option maxRecDepth 100000 in
lemma freq_empty : AsciiFrequencyAnalysisAttack [] = [] := by decide

lemma freq_ne_nil {ct : List Nat} (h : ct ≠ []) :
    AsciiFrequencyAnalysisAttack ct ≠ [] := by
  obtain ⟨k, hk, hmin⟩ := Finset.exists_min_image (Finset.range 128) (distQ ct)
    ⟨0, Finset.mem_range.mpr (by omega)⟩
  have hfound : mapFind (AsciiFrequencyAnalysisAttack ct) k = some 1 := by
    rw [freq_master h k]
    exact if_pos ⟨Finset.mem_range.mp hk, fun t ht => hmin t (Finset.mem_range.mpr ht)⟩
  intro hnil
  rw [hnil] at hfound
  exact Option.noConfusion hfound

/-! ## The frequency attack on a one-byte ciphertext, in closed form -/

lemma foldl_add_eq_sum (g : Nat → ℚ) (n : Nat) :
    (List.range n).foldl (fun a i => a + g i) 0 = ∑ i in Finset.range n, g i := by
  induction n with
  | zero => rfl
  | succ n ih =>
    rw [List.range_succ, List.foldl_append, Finset.sum_range_succ, ih]
    rfl

lemma histCount_single (c s i : Nat) :
    histCount [c] s i = if shiftByte c s = i then 1 else 0 := by
  by_cases h : shiftByte c s = i
  · have hb : (shiftByte c s == i) = true := beq_iff_eq.mpr h
    simp [histCount, List.filter, hb, h]
  · have hb : (shiftByte c s == i) = false := by simp [h]
    simp [histCount, List.filter, hb, h]

lemma obsQ_single (c s i : Nat) :
    obsQ [c] s i = if shiftByte c s = i then 1 else 0 := by
  unfold obsQ
  rw [histCount_single]
  by_cases h : shiftByte c s = i <;> simp [h]

lemma distQ_single (c s : Nat) :
    distQ [c] s =
      1 + (∑ i in Finset.range 128, refQ i) - 2 * refQ (shiftByte c s) := by
  have hb : shiftByte c s < 128 := Nat.mod_lt _ (by norm_num)
  have hbmem : shiftByte c s ∈ Finset.range 128 := Finset.mem_range.mpr hb
  unfold distQ
  simp only [kAsciiAlphabetSize_eq]
  rw [foldl_add_eq_sum]
  have hterm : ∀ i ∈ Finset.range 128, |obsQ [c] s i - refQ i|
      = (if shiftByte c s = i then 1 - refQ i else refQ i) := by
    intro i _
    rw [obsQ_single]
    by_cases h : shiftByte c s = i
    · rw [if_pos h, if_pos h, abs_of_nonneg (by linarith [refQ_le_one i])]
    · rw [if_neg h, if_neg h, zero_sub, abs_neg, abs_of_nonneg (refQ_nonneg i)]
  rw [Finset.sum_congr rfl hterm, ← Finset.add_sum_erase _ _ hbmem, if_pos rfl]
  have herase : ∑ i in (Finset.range 128).erase (shiftByte c s),
      (if shiftByte c s = i then 1 - refQ i else refQ i)
      = ∑ i in (Finset.range 128).erase (shiftByte c s), refQ i := by
    apply Finset.sum_congr rfl
    intro i hi
    exact if_neg (fun hh => Finset.ne_of_mem_erase hi hh.symm)
  rw [herase, Finset.sum_erase_eq_sub hbmem]
  ring

lemma refQ_le_refQ32 (i : Nat) : refQ i ≤ refQ 32 := by
  have h32 : refF 32 = dec 167564443682168 15 := rfl
  have h32q : refQ 32 = (167564443682168 : ℚ) / ((10 ^ 15 : Nat) : ℚ) := by
    unfold refQ
    rw [h32]
    unfold dec Frac.toRat
    norm_num
  have htab : ∀ f ∈ kAsciiFreqDistro,
      f.num * (10 ^ 15 : Int) ≤ 167564443682168 * (f.den : Int) := by decide
  cases hgi : kAsciiFreqDistro.get? i with
  | none =>
    have h0 : refQ i = 0 := by
      unfold refQ refF
      rw [hgi]
      unfold dec Frac.toRat
      norm_num
    rw [h0, h32q]
    positivity
  | some f =>
    have hbound := htab f (List.get?_mem hgi)
    have hden := (kAsciiFreqDistro_entry_bounds f (List.get?_mem hgi)).1
    have hdenq : (0 : ℚ) < (f.den : ℚ) := by exact_mod_cast Nat.pos_of_ne_zero hden
    have h15 : (0 : ℚ) < ((10 ^ 15 : Nat) : ℚ) := by positivity
    have hi : refQ i = (f.num : ℚ) / (f.den : ℚ) := by
      unfold refQ refF Frac.toRat
      rw [hgi]
      rfl
    rw [hi, h32q, div_le_div_iff hdenq h15]
    exact_mod_cast hbound

lemma isMinDistShift_97_63 : IsMinDistShift [97] 63 := by
  refine ⟨by norm_num, ?_⟩
  intro t ht
  rw [distQ_single, distQ_single]
  have hb : shiftByte 97 63 = 32 := by decide
  rw [hb]
  have h := refQ_le_refQ32 (shiftByte 97 t)
  linarith

lemma freq97_found : mapFind (AsciiFrequencyAnalysisAttack [97]) 63 = some 1 := by
  rw [freq_master (by decide) 63]
  exact if_pos isMinDistShift_97_63


/-! ## Shifted ciphertexts: the score map rotates with the key -/

lemma shiftByte_rot (c K s : Nat) :
    shiftByte (shiftByte c K) s = shiftByte c ((s + K) % 128) := by
  unfold shiftByte
  simp only [kAsciiAlphabetSize_eq]
  omega

lemma wordStep_rot (c K s : Nat) (w : List Nat) :
    wordStep (shiftByte c K) s w = wordStep c ((s + K) % 128) w := by
  unfold wordStep
  rw [shiftByte_rot]

lemma scoreBumpb_rot (dict : List (List Nat)) (c K s : Nat) (w : List Nat) :
    scoreBumpb dict (shiftByte c K) s w = scoreBumpb dict c ((s + K) % 128) w := by
  unfold scoreBumpb
  rw [shiftByte_rot]

lemma shiftBuf_rot (ct : List Nat) (K s : Nat) :
    shiftBuf (AsciiCaesarCipher ct K) s = shiftBuf ct ((s + K) % 128) := by
  unfold shiftBuf AsciiCaesarCipher
  rw [List.foldl_map]
  simp only [wordStep_rot]

lemma shiftRun_rot (dict : List (List Nat)) (ct : List Nat) (K s : Nat) :
    shiftRun dict (AsciiCaesarCipher ct K) s = shiftRun dict ct ((s + K) % 128) := by
  unfold shiftRun AsciiCaesarCipher
  rw [List.foldl_map]
  simp only [scoreBumpb_rot, wordStep_rot]

lemma dictTotal_rot (dict : List (List Nat)) (ct : List Nat) (K s : Nat) :
    dictTotal dict (AsciiCaesarCipher ct K) s = dictTotal dict ct ((s + K) % 128) := by
  unfold dictTotal shiftHits
  rw [shiftRun_rot, shiftBuf_rot]

lemma dict_attack_rot (ct ds : List Nat) (K s : Nat) (hs : s < 128) :
    mapFind (AsciiDictionaryAttack (AsciiCaesarCipher ct K) ds) s =
      mapFind (AsciiDictionaryAttack ct ds) ((s + K) % 128) := by
  rw [dict_master, dict_master, dictTotal_rot]
  have h2 : (s + K) % 128 < 128 := Nat.mod_lt _ (by norm_num)
  simp [hs, h2]

lemma histCount_rot (ct : List Nat) (K s b : Nat) :
    histCount (AsciiCaesarCipher ct K) s b = histCount ct ((s + K) % 128) b := by
  unfold histCount AsciiCaesarCipher
  rw [List.filter_map, List.length_map]
  simp only [Function.comp_def, shiftByte_rot]

lemma distQ_rot (ct : List Nat) (K s : Nat) :
    distQ (AsciiCaesarCipher ct K) s = distQ ct ((s + K) % 128) := by
  unfold distQ obsQ
  have hlen : (AsciiCaesarCipher ct K).length = ct.length := List.length_map _ _
  simp only [histCount_rot, hlen]

lemma freq_attack_rot (ct : List Nat) (K s : Nat) (hs : s < 128) :
    mapFind (AsciiFrequencyAnalysisAttack (AsciiCaesarCipher ct K)) s =
      mapFind (AsciiFrequencyAnalysisAttack ct) ((s + K) % 128) := by
  by_cases hct : ct = []
  · subst hct
    have h0 : AsciiCaesarCipher ([] : List Nat) K = [] := rfl
    rw [h0, freq_empty]
    rfl
  · have hcip : AsciiCaesarCipher ct K ≠ [] := by
      intro hh
      exact hct (List.map_eq_nil.mp hh)
    rw [freq_master hcip s, freq_master hct ((s + K) % 128)]
    have h2 : (s + K) % 128 < 128 := Nat.mod_lt _ (by norm_num)
    have hiff : IsMinDistShift (AsciiCaesarCipher ct K) s ↔
        IsMinDistShift ct ((s + K) % 128) := by
      unfold IsMinDistShift
      simp only [distQ_rot]
      constructor
      · rintro ⟨_, hall⟩
        refine ⟨h2, ?_⟩
        intro t ht
        obtain ⟨u, hu, hut⟩ : ∃ u, u < 128 ∧ (u + K) % 128 = t :=
          ⟨(t + 128 - K % 128) % 128, by omega, by omega⟩
        rw [← hut]
        exact hall u hu
      · rintro ⟨_, hall⟩
        refine ⟨hs, ?_⟩
        intro t ht
        exact hall ((t + K) % 128) (Nat.mod_lt _ (by norm_num))
    by_cases hm : IsMinDistShift (AsciiCaesarCipher ct K) s
    · rw [if_pos hm, if_pos (hiff.mp hm)]
    · rw [if_neg hm, if_neg (fun hh => hm (hiff.mpr hh))]

/-! ## Small helpers for the degenerate-input claims -/

lemma scoreBumpb_nil_dict (c s : Nat) (w : List Nat) :
    scoreBumpb [] c s w = false := by
  unfold scoreBumpb
  simp [List.contains]

lemma shiftHits_nil_dict (ct : List Nat) (s : Nat) : shiftHits [] ct s = 0 := by
  suffices hgen : ∀ (l : List Nat) (a : Nat) (w : List Nat),
      (l.foldl (fun st c =>
        (st.1 + (if scoreBumpb [] c s st.2 then 1 else 0), wordStep c s st.2)) (a, w)).1 = a by
    exact hgen ct 0 []
  intro l
  induction l with
  | nil => intro a w; rfl
  | cons c l ih =>
    intro a w
    rw [List.foldl_cons]
    show (List.foldl (fun st c =>
        (st.1 + (if scoreBumpb [] c s st.2 then 1 else 0), wordStep c s st.2))
        (a + (if scoreBumpb [] c s w then 1 else 0), wordStep c s w) l).1 = a
    rw [scoreBumpb_nil_dict c s w]
    simpa using ih a (wordStep c s w)

/-! ## Claims -/

/-- C1 (counterexample): encrypting `"attack at dawn"` with key 27 and running
`AsciiDictionaryAttack` against {attack, at, dawn} does NOT put key 27 in the
result map at all, contradicting the claimed presence of 27 with score ≥ 3.
The attack scores the shift that decrypts the ciphertext, which is
`128 - 27 = 101`, not the encryption key 27. -/
theorem claim_C1_counterexample :
    mapFind (AsciiDictionaryAttack (AsciiCaesarCipher attackAtDawn 27) attackDict) 27
      = none := by
  decide

/-- C1 (amended): the attackers recover the decryption shift, not the
encryption key: for every ciphertext, dictionary, key `K` and `s < 128`, the
score of key `s` on the shifted ciphertext equals the score of key
`(s + K) % 128` on the original, for both attackers; hence evidence for the
plaintext appears at key `(128 - K) % 128`.  Concretely,
`shift("attack at dawn", 27)` against {attack, at, dawn} yields exactly the
map {101 ↦ 3}: key `101 = 128 - 27` is present with score 3 and every key
producing zero valid words is absent (implicit score 0 < 3). -/
theorem claim_C1_roundtrip_rotation :
    (∀ (ct ds : List Nat) (K s : Nat), s < 128 →
      mapFind (AsciiDictionaryAttack (AsciiCaesarCipher ct K) ds) s =
        mapFind (AsciiDictionaryAttack ct ds) ((s + K) % 128)) ∧
    (∀ (ct : List Nat) (K s : Nat), s < 128 →
      mapFind (AsciiFrequencyAnalysisAttack (AsciiCaesarCipher ct K)) s =
        mapFind (AsciiFrequencyAnalysisAttack ct) ((s + K) % 128)) ∧
    mapFind (AsciiDictionaryAttack (AsciiCaesarCipher attackAtDawn 27) attackDict) 101
      = some 3 ∧
    (∀ k, k ≠ 101 →
      mapFind (AsciiDictionaryAttack (AsciiCaesarCipher attackAtDawn 27) attackDict) k
        = none) := by
  have hcomp : AsciiDictionaryAttack (AsciiCaesarCipher attackAtDawn 27) attackDict
      = [(101, 3)] := by decide
  refine ⟨fun ct ds K s hs => dict_attack_rot ct ds K s hs,
    fun ct K s hs => freq_attack_rot ct K s hs, ?_, ?_⟩
  · rw [hcomp]
    rfl
  · intro k hk
    rw [hcomp]
    show (if 101 = k then some 3 else mapFind [] k) = none
    rw [if_neg (fun hh => hk hh.symm)]
    rfl

/-- C1 (witness): the rotation statements instantiated at concrete inputs,
and a key other than 101 being absent from the concrete scenario's map. -/
theorem claim_C1_witness :
    mapFind (AsciiDictionaryAttack (AsciiCaesarCipher [97] 5) [97]) 3 =
      mapFind (AsciiDictionaryAttack [97] [97]) ((3 + 5) % 128) ∧
    mapFind (AsciiFrequencyAnalysisAttack (AsciiCaesarCipher [97] 5)) 3 =
      mapFind (AsciiFrequencyAnalysisAttack [97]) ((3 + 5) % 128) ∧
    mapFind (AsciiDictionaryAttack (AsciiCaesarCipher attackAtDawn 27) attackDict) 7
      = none :=
  ⟨claim_C1_roundtrip_rotation.1 [97] [97] 5 3 (by decide),
   claim_C1_roundtrip_rotation.2.1 [97] 5 3 (by decide),
   claim_C1_roundtrip_rotation.2.2.2 7 (by decide)⟩

/-- C2 (counterexample): with a dictionary stream consisting of one empty
line (so the loaded word set contains the empty string) and a ciphertext that
yields zero bytes, `AsciiDictionaryAttack` returns a NON-empty map: the
trailing-buffer flush looks up the empty buffer of every shift and scores it. -/
theorem claim_C2_counterexample :
    AsciiDictionaryAttack [] [10] ≠ [] := by
  decide

/-- C2 (amended): for a ciphertext stream yielding zero bytes (empty or
unreadable), `AsciiDictionaryAttack` returns the empty map provided the
loaded dictionary does not contain the empty string, and
`AsciiFrequencyAnalysisAttack` returns the empty map unconditionally. -/
theorem claim_C2_empty_input (ds : List Nat) (hds : ¬ [] ∈ LoadDictionary ds) :
    AsciiDictionaryAttack [] ds = [] ∧ AsciiFrequencyAnalysisAttack [] = [] := by
  refine ⟨?_, freq_empty⟩
  apply eq_nil_of_mapFind_none
  intro k
  rw [dict_master]
  have h0 : dictTotal (LoadDictionary ds) [] k = 0 := by
    unfold dictTotal
    have h1 : shiftHits (LoadDictionary ds) [] k = 0 := rfl
    have h2 : shiftBuf [] k = [] := rfl
    have h3 : (LoadDictionary ds).contains [] = false := by
      cases hcc : (LoadDictionary ds).contains [] with
      | false => rfl
      | true => exact absurd (List.elem_iff.mp hcc) hds
    rw [h1, h2, h3]
    rfl
  rw [h0]
  simp

/-- C2 (witness): the amended statement at the dictionary stream `"a"`. -/
theorem claim_C2_witness :
    AsciiDictionaryAttack [] [97] = [] ∧ AsciiFrequencyAnalysisAttack [] = [] :=
  claim_C2_empty_input [97] (by decide)

/-- C3 (counterexample): the map-empty-iff-no-bytes invariant fails for the
dictionary attacker: on the one-byte ciphertext `"a"` with dictionary
`{"zzz"}` the attack reads a byte yet returns an empty map. -/
theorem claim_C3_counterexample :
    AsciiDictionaryAttack [97] [122, 122, 122] = [] ∧ ([97] : List Nat) ≠ [] := by
  decide

/-- C3 (amended): the emptiness invariant holds for the frequency attacker
only: its map is empty exactly when zero ciphertext bytes were read.  For the
dictionary attacker it fails in both directions: a non-empty ciphertext with
no dictionary matches yields an empty map, and an empty ciphertext with an
empty string in the dictionary yields a non-empty map.  (A mid-stream fault
is end of available input in this embedding: the result is computed from the
bytes read before the fault.) -/
theorem claim_C3_empty_iff :
    (∀ ct : List Nat, AsciiFrequencyAnalysisAttack ct = [] ↔ ct = []) ∧
    AsciiDictionaryAttack [98] [113, 113, 113] = [] ∧
    AsciiDictionaryAttack [] [10, 10] ≠ [] := by
  refine ⟨?_, by decide, by decide⟩
  intro ct
  constructor
  · intro hnil
    by_contra hne
    exact freq_ne_nil hne hnil
  · rintro rfl
    exact freq_empty

/-- C4: on every non-empty ASCII ciphertext the frequency attack returns a map
whose keys are exactly the shifts of minimal Manhattan distance between the
normalised 128-bucket histogram of shifted bytes and the reference
distribution (all ties included), every present key having value exactly 1. -/
theorem claim_C4_min_dist_keys (ct : List Nat) (hne : ct ≠ [])
    (hascii : ∀ c ∈ ct, c < 128) (k v : Nat) :
    mapFind (AsciiFrequencyAnalysisAttack ct) k = some v ↔
      (IsMinDistShift ct k ∧ v = 1) := by
  rw [freq_master hne k]
  by_cases hm : IsMinDistShift ct k
  · rw [if_pos hm]
    constructor
    · intro hh
      exact ⟨hm, (Option.some.inj hh).symm⟩
    · rintro ⟨_, rfl⟩
      rfl
  · rw [if_neg hm]
    constructor
    · intro hh
      exact absurd hh (by simp)
    · rintro ⟨hmm, _⟩
      exact absurd hmm hm

/-- C4 (witness): the characterisation instantiated on the one-byte ASCII
ciphertext `"a"` at key 63 and value 1. -/
theorem claim_C4_witness :
    mapFind (AsciiFrequencyAnalysisAttack [97]) 63 = some 1 ↔
      (IsMinDistShift [97] 63 ∧ 1 = 1) :=
  claim_C4_min_dist_keys [97] (by decide) (by decide) 63 1

/-- C5: the per-byte, per-shift transition of the dictionary attack's single
pass: with `tmp = (byte + shift) % 128`, an alphanumeric `tmp` is lowercased
and appended to the shift's buffer (score untouched); otherwise a whitespace
`tmp` with a non-empty buffer completes a word, incrementing the shift's
score exactly when the buffer is in the dictionary and clearing the buffer
regardless; otherwise both buffer and score are left unchanged. -/
theorem claim_C5_dictionary_step (dict : List (List Nat)) (c s : Nat)
    (scores : ScoreMap) (w : List Nat) :
    (isalnum (shiftByte c s) = true →
      dictCharStep dict c s scores w = (scores, w ++ [tolower (shiftByte c s)])) ∧
    (isalnum (shiftByte c s) = false → w ≠ [] → isspace (shiftByte c s) = true →
      dictCharStep dict c s scores w =
        ((if dict.contains w then mapIncr scores s else scores), [])) ∧
    (isalnum (shiftByte c s) = false →
      (w = [] ∨ isspace (shiftByte c s) = false) →
      dictCharStep dict c s scores w = (scores, w)) := by
  refine ⟨?_, ?_, ?_⟩
  · intro h1
    unfold dictCharStep
    simp [h1]
  · intro h1 h2 h3
    have hne : w.isEmpty = false := by
      cases w with
      | nil => exact absurd rfl h2
      | cons a l => rfl
    unfold dictCharStep
    simp [h1, h3, hne]
  · intro h1 h2
    unfold dictCharStep
    rcases h2 with h2 | h2
    · subst h2
      simp [h1]
    · simp [h1, h2]

/-- C5 (witness): the three cases at concrete bytes: `'a'` extends a buffer,
`' '` completes the word `"a"`, `'.'` leaves the buffer untouched. -/
theorem claim_C5_witness :
    dictCharStep [] 97 0 [] [] = ([], [] ++ [tolower (shiftByte 97 0)]) ∧
    dictCharStep [[97]] 32 0 [] [97] =
      ((if [[97]].contains [97] then mapIncr [] 0 else []), []) ∧
    dictCharStep [] 46 0 [] [97] = ([], [97]) :=
  ⟨(claim_C5_dictionary_step [] 97 0 [] []).1 (by decide),
   (claim_C5_dictionary_step [[97]] 32 0 [] [97]).2.1 (by decide) (by decide) (by decide),
   (claim_C5_dictionary_step [] 46 0 [] [97]).2.2 (by decide) (Or.inr (by decide))⟩

/-- C6 (counterexample): the trailing-word flush performs its lookup even for
shifts whose trailing buffer is empty: on ciphertext `"a "` with a dictionary
stream of one empty line, shift 0 ends with an empty buffer and zero mid-pass
hits, yet key 0 is present with score 1 — the flush looked the empty buffer
up and it matched the dictionary's empty string. -/
theorem claim_C6_counterexample :
    shiftBuf [97, 32] 0 = [] ∧
    shiftHits (LoadDictionary [10]) [97, 32] 0 = 0 ∧
    mapFind (AsciiDictionaryAttack [97, 32] [10]) 0 = some 1 := by
  decide

/-- C6 (amended): after the pass, the dictionary lookup is performed exactly
once for EVERY shift, on its (possibly empty) trailing buffer, with no
emptiness test: every key's final value is its mid-pass hit count plus 1
exactly when the trailing buffer — empty or not — is in the dictionary, and
the key is present exactly when that total is positive.  For dictionaries
not containing the empty string this coincides with the claimed behaviour. -/
theorem claim_C6_unconditional_flush (ct ds : List Nat) (k : Nat) (hk : k < 128) :
    mapFind (AsciiDictionaryAttack ct ds) k =
      if 0 < shiftHits (LoadDictionary ds) ct k
          + (if (LoadDictionary ds).contains (shiftBuf ct k) then 1 else 0) then
        some (shiftHits (LoadDictionary ds) ct k
          + (if (LoadDictionary ds).contains (shiftBuf ct k) then 1 else 0))
      else none := by
  rw [dict_master]
  unfold dictTotal
  simp [hk]

/-- C6 (witness): the flush characterisation at ciphertext `"a"`, dictionary
`{"a"}`, key 0. -/
theorem claim_C6_witness :
    mapFind (AsciiDictionaryAttack [97] [97, 10]) 0 =
      if 0 < shiftHits (LoadDictionary [97, 10]) [97] 0
          + (if (LoadDictionary [97, 10]).contains (shiftBuf [97] 0) then 1 else 0) then
        some (shiftHits (LoadDictionary [97, 10]) [97] 0
          + (if (LoadDictionary [97, 10]).contains (shiftBuf [97] 0) then 1 else 0))
      else none :=
  claim_C6_unconditional_flush [97] [97, 10] 0 (by decide)

/-- C7: with a dictionary stream that is unreadable or yields zero bytes, the
loaded word set is empty, no buffer ever matches, and `AsciiDictionaryAttack`
returns the empty map for every (in particular every non-empty) ciphertext. -/
theorem claim_C7_empty_dictionary (ct : List Nat) (h : ct ≠ []) :
    AsciiDictionaryAttack ct [] = [] := by
  apply eq_nil_of_mapFind_none
  intro k
  rw [dict_master]
  have h0 : dictTotal (LoadDictionary []) ct k = 0 := by
    show dictTotal [] ct k = 0
    unfold dictTotal
    rw [shiftHits_nil_dict]
    rfl
  rw [h0]
  simp

/-- C7 (witness): the empty-dictionary statement at the one-byte ciphertext
`"a"`. -/
theorem claim_C7_witness :
    ([97] : List Nat) ≠ [] ∧ AsciiDictionaryAttack [97] [] = [] :=
  ⟨by decide, claim_C7_empty_dictionary [97] (by decide)⟩

/-- C8: neither attacker ever stores an explicit 0 entry: every key present
in `AsciiDictionaryAttack`'s map has value ≥ 1 and a positive match total
(some dictionary entry matched under that shift, mid-pass or at the flush),
and every key present in `AsciiFrequencyAnalysisAttack`'s map has value
exactly 1 and is tied for the minimum distance. -/
theorem claim_C8_sparse_scores :
    (∀ (ct ds : List Nat) (k v : Nat),
      mapFind (AsciiDictionaryAttack ct ds) k = some v →
        1 ≤ v ∧ 0 < dictTotal (LoadDictionary ds) ct k) ∧
    (∀ (ct : List Nat) (k v : Nat),
      mapFind (AsciiFrequencyAnalysisAttack ct) k = some v →
        v = 1 ∧ IsMinDistShift ct k) := by
  constructor
  · intro ct ds k v hfound
    rw [dict_master] at hfound
    by_cases hc : k < 128 ∧ 0 < dictTotal (LoadDictionary ds) ct k
    · rw [if_pos hc] at hfound
      have hv := Option.some.inj hfound
      exact ⟨by omega, hc.2⟩
    · rw [if_neg hc] at hfound
      exact absurd hfound (by simp)
  · intro ct k v hfound
    by_cases hct : ct = []
    · subst hct
      rw [freq_empty] at hfound
      exact absurd hfound (by simp [mapFind])
    · rw [freq_master hct k] at hfound
      by_cases hm : IsMinDistShift ct k
      · rw [if_pos hm] at hfound
        exact ⟨(Option.some.inj hfound).symm, hm⟩
      · rw [if_neg hm] at hfound
        exact absurd hfound (by simp)

/-- C8 (witness): both parts instantiated: key 0 of the dictionary attack on
`"a"` with dictionary `{"a"}`, and key 63 of the frequency attack on `"a"`. -/
theorem claim_C8_witness :
    (1 ≤ 1 ∧ 0 < dictTotal (LoadDictionary [97, 10]) [97] 0) ∧
    (1 = 1 ∧ IsMinDistShift [97] 63) :=
  ⟨claim_C8_sparse_scores.1 [97] [97, 10] 0 1 (by decide),
   claim_C8_sparse_scores.2 [97] 63 1 freq97_found⟩

/-- C9: both attackers are deterministic: two runs on equal ciphertext and
dictionary inputs return equal score maps.  In this embedding both attackers
are pure functions of the bytes read, so determinism is by construction. -/
theorem claim_C9_determinism (ct ds ct2 ds2 : List Nat)
    (hct : ct = ct2) (hds : ds = ds2) :
    AsciiDictionaryAttack ct ds = AsciiDictionaryAttack ct2 ds2 ∧
    AsciiFrequencyAnalysisAttack ct = AsciiFrequencyAnalysisAttack ct2 := by
  subst hct
  subst hds
  exact ⟨rfl, rfl⟩

/-- C9 (witness): determinism at a concrete input pair. -/
theorem claim_C9_witness :
    AsciiDictionaryAttack [97] [98] = AsciiDictionaryAttack [97] [98] ∧
    AsciiFrequencyAnalysisAttack [97] = AsciiFrequencyAnalysisAttack [97] :=
  claim_C9_determinism [97] [98] [97] [98] rfl rfl

/-- C10: the shifted byte `(b + shift) % 128` always lies in `[0,127]`, so
every histogram bucket access is in bounds (no mass outside buckets below
128), and every character-classification or lowercasing call receives a
value below 128; the embedded functions are total. -/
theorem claim_C10_shift_in_range :
    (∀ b s : Nat, b < 128 → s < 128 → shiftByte b s < 128) ∧
    (∀ c s : Nat, tolower (shiftByte c s) < 128) ∧
    (∀ (ct : List Nat) (s b : Nat), 128 ≤ b → histCount ct s b = 0) := by
  have hlt : ∀ c s : Nat, shiftByte c s < 128 := fun c s =>
    Nat.mod_lt _ (by norm_num)
  refine ⟨fun b s _ _ => hlt b s, ?_, ?_⟩
  · intro c s
    have h := hlt c s
    unfold tolower
    split
    · rename_i hcond
      simp only [Bool.and_eq_true, decide_eq_true_eq] at hcond
      omega
    · omega
  · intro ct s b hb
    unfold histCount
    have hnil : ct.filter (fun c => shiftByte c s == b) = [] := by
      apply List.filter_eq_nil.mpr
      intro c _
      have h := hlt c s
      simp only [beq_iff_eq]
      omega
    rw [hnil]
    rfl

/-- C10 (witness): the range facts at concrete bytes, shifts and buckets. -/
theorem claim_C10_witness :
    shiftByte 97 5 < 128 ∧ tolower (shiftByte 70 100) < 128 ∧
    histCount [97] 5 130 = 0 :=
  ⟨claim_C10_shift_in_range.1 97 5 (by decide) (by decide),
   claim_C10_shift_in_range.2.1 70 100,
   claim_C10_shift_in_range.2.2 [97] 5 130 (by decide)⟩


end CaesarCracker
